import Mathlib

/-!
Shallow embedding of the tin runtime scheduler core (src/tin/runtime/p.h,
src/tin/runtime/scheduler.h) and of the IPAddress utilities
(src/unnamed/part_000), together with theorems settling the frozen claims
about them.

The repository ships only the headers for `P` and `Scheduler`; the method
bodies (RunqPut, RunqGet, RunqSteal, FindRunnable, GlobalRunqGet, the
GletWork handshake) are declared but not present under src/.  Those
operations are therefore modelled from the specification, as noted on each
definition.  The IPAddress functions are translated from their full source.

G pointers (`G*` / `GUintptr` in the source) are modelled as natural
numbers, with 0 playing the role of the null pointer, matching the
source's uintptr encoding.  The 32-bit ring counters `runq_head_` and
`runq_tail_` are naturals kept below 2^32, with every counter update
reduced mod 2^32.
-/

namespace Tin

/-- Wrap-around modulus of the 32-bit ring counters (uint32 arithmetic). -/
def uint32Mod : Nat := 4294967296

/-- `kRunqCapacity = 256`, from the enum in src/tin/runtime/p.h. -/
def kRunqCapacity : Nat := 256

/-- A `G*` (a `GUintptr`): a machine word, 0 = null. -/
abbrev GPtr := Nat

/-- The state of a logical processor `P` (src/tin/runtime/p.h): ring buffer
`runq_[256]` addressed by 32-bit head/tail counters at index
`counter % 256`, the single `run_next_` slot, and the `sched_tick_`
dispatch counter.  The ring contents are a function from slot index to the
stored G pointer. -/
structure P where
  runq_head : Nat
  runq_tail : Nat
  runq : Nat → GPtr
  run_next : GPtr
  sched_tick : Nat

/-- Number of G's currently in the ring: the 32-bit difference
`(tail - head) mod 2^32`. -/
def ringSize (p : P) : Nat := (p.runq_tail + uint32Mod - p.runq_head) % uint32Mod

/-- Modelled from the spec: the ring producer step — write the G at
`tail % 256`, then publish `tail + 1` (32-bit wrap). -/
def ringPut (p : P) (gp : GPtr) : P :=
  { p with runq := Function.update p.runq (p.runq_tail % kRunqCapacity) gp,
           runq_tail := (p.runq_tail + 1) % uint32Mod }

/-- Iterated `ringPut` of a batch of G's (front of the list first). -/
def ringPutList (p : P) (l : List GPtr) : P := l.foldl ringPut p

/-- The ring contents between head and tail, head first:
slot `(head + i) % 256` for `i < k`. -/
def ringSlice (p : P) (k : Nat) : List GPtr :=
  (List.range k).map (fun i => p.runq ((p.runq_head + i) % kRunqCapacity))

/-- Modelled from the spec: `P::RunqPutSlow` — take half of the ring
(`n = (tail - head) / 2`, which is 128 when the ring is full), advance the
head past it, and hand the batch plus the new G to the global queue.
Returns the new `P` state and the list of G's moved to the global queue
(its last element is the newly inserted G). -/
def RunqPutSlow (p : P) (gp : GPtr) : P × List GPtr :=
  let n := ringSize p / 2
  ({ p with runq_head := (p.runq_head + n) % uint32Mod }, ringSlice p n ++ [gp])

/-- Insert a G into the ring, spilling to the global queue when full. -/
def RunqPutRing (p : P) (gp : GPtr) : P × List GPtr :=
  if ringSize p < kRunqCapacity then (ringPut p gp, [])
  else RunqPutSlow p gp

/-- Modelled from the spec: `P::RunqPut(gp, next)` — when `next` is true
`gp` becomes the new run-next slot and the displaced G (if any) is
inserted into the ring; otherwise `gp` goes to the ring tail.  If the ring
is full, half of it plus the new G are batch-moved to the global queue.
Returns the new `P` state and the list of G's moved to the global queue
(empty on the fast path). -/
def RunqPut (p : P) (gp : GPtr) (next : Bool) : P × List GPtr :=
  if next then
    let oldnext := p.run_next
    let p' : P := { p with run_next := gp }
    if oldnext = 0 then (p', []) else RunqPutRing p' oldnext
  else RunqPutRing p gp

/-- Modelled from the spec: `P::RunqGet(&inherit_time)` — if the run-next
slot is non-empty take it with `inherit_time = true`; otherwise take the
ring head with `inherit_time = false`; null when both are empty.
Returns `(g, inherit_time, new P)`. -/
def RunqGet (p : P) : GPtr × Bool × P :=
  if p.run_next ≠ 0 then (p.run_next, true, { p with run_next := 0 })
  else if p.runq_head = p.runq_tail then (0, false, p)
  else (p.runq (p.runq_head % kRunqCapacity), false,
        { p with runq_head := (p.runq_head + 1) % uint32Mod })

/-- Modelled from the spec: `P::RunqEmpty` — true iff ring and run-next
are both empty. -/
def RunqEmpty (p : P) : Bool :=
  p.runq_head == p.runq_tail && p.run_next == 0

/-- Modelled from the spec: `P::RunqGrab` — compute `n = (tail - head) / 2`
and take that many G's off the victim's ring head; when `n = 0` (ring
empty or holding a single G) and `steal_nextg` is set, grab the victim's
run-next slot instead.  Returns the grabbed batch and the new victim
state. -/
def RunqGrab (p2 : P) (steal_nextg : Bool) : List GPtr × P :=
  let n := ringSize p2 / 2
  if n = 0 then
    if steal_nextg && p2.run_next != 0 then
      ([p2.run_next], { p2 with run_next := 0 })
    else ([], p2)
  else
    (ringSlice p2 n, { p2 with runq_head := (p2.runq_head + n) % uint32Mod })

/-- Modelled from the spec: `P::RunqSteal(p2, steal_nextg)` — grab a batch
from the victim `p2`, insert all but the last grabbed G into this P's
ring, and return the last grabbed G to run immediately.
Returns `(g, new thief, new victim)`. -/
def RunqSteal (p p2 : P) (steal_nextg : Bool) : GPtr × P × P :=
  let bp := RunqGrab p2 steal_nextg
  match bp.1 with
  | [] => (0, p, bp.2)
  | _ :: _ => (bp.1.getLastD 0, ringPutList p bp.1.dropLast, bp.2)

/-- Modelled from the spec: `P::MoveRunqToGlobal` — drain the whole ring
plus the run-next slot to the global queue.  Returns the new `P` state and
the drained list. -/
def MoveRunqToGlobal (p : P) : P × List GPtr :=
  let l := ringSlice p (ringSize p)
  ({ p with runq_head := p.runq_tail, run_next := 0 },
   if p.run_next ≠ 0 then l ++ [p.run_next] else l)

/-- The scheduler's global state (src/tin/runtime/scheduler.h): the global
FIFO run queue of G's (front = head) and the number of P's
(`GOMAXPROCS`). -/
structure SchedState where
  runq : List GPtr
  nprocs : Nat

/-- `Scheduler::GlobalRunqSize`: the size counter of the global queue. -/
def GlobalRunqSize (s : SchedState) : Nat := s.runq.length

/-- Modelled from the spec: `Scheduler::GlobalRunqPut` — append a G at the
tail of the global FIFO. -/
def GlobalRunqPut (s : SchedState) (gp : GPtr) : SchedState :=
  { s with runq := s.runq ++ [gp] }

/-- The number of G's `GlobalRunqGet` moves off the global queue:
`min(size/NPROCS + 1, maximium, size)` (spec §4.2). -/
def globTransferCount (s : SchedState) (maximium : Nat) : Nat :=
  min (GlobalRunqSize s / s.nprocs + 1) (min maximium (GlobalRunqSize s))

/-- Modelled from the spec: `Scheduler::GlobalRunqGet(p, maximium)` — move
`min(size/NPROCS + 1, maximium, size)` G's off the global queue: the first
is returned to run, the rest are inserted into `p`'s local ring.
Returns `(g, new scheduler state, new P)`; null when the queue is empty. -/
def GlobalRunqGet (s : SchedState) (p : P) (maximium : Nat) : GPtr × SchedState × P :=
  if GlobalRunqSize s = 0 then (0, s, p)
  else
    let n := globTransferCount s maximium
    (s.runq.headD 0, { s with runq := s.runq.drop n },
     ringPutList p (s.runq.take n).tail)

/-- Modelled from the spec, §4.3 steps 1–3 of FindRunnable: every 61st
dispatch consults the global queue (one G) before the local run-next slot
and ring; otherwise try the local P, then a global batch.  `sched_tick`
counts completed dispatches (OnSwitch increments it after every dispatch),
so the 61st dispatch executes with `sched_tick % 61 = 60`.  Steps 4–8
(netpoll, steal, park) are beyond this model; null is returned when they
would be reached.  Returns `(g, inherit_time, new scheduler state, new P)`. -/
def FindRunnable (s : SchedState) (p : P) : GPtr × Bool × SchedState × P :=
  if (p.sched_tick + 1) % 61 == 0 && !s.runq.isEmpty then
    let r := GlobalRunqGet s p 1
    (r.1, false, r.2.1, r.2.2)
  else
    let r := RunqGet p
    if r.1 ≠ 0 then (r.1, r.2.1, s, r.2.2)
    else if !s.runq.isEmpty then
      let r := GlobalRunqGet s p (GlobalRunqSize s)
      (r.1, false, r.2.1, r.2.2)
    else (0, false, s, p)

/-- Status of a greenlet, from the spec's data model. -/
inductive GStatus
  | runnable
  | running
  | syscall
  | waiting
  | dead
deriving DecidableEq

/-- A `GletWork` item (src/tin/runtime/scheduler.h): the last-error slot
and the submitting G recorded at construction. -/
structure GletWork where
  last_error : Int
  gp : GPtr

/-- `GletWork::SaveLastError`. -/
def SaveLastError (w : GletWork) (err : Int) : GletWork :=
  { w with last_error := err }

/-- `GletWork::LastError`. -/
def LastError (w : GletWork) : Int := w.last_error

/-- Outcome of the thread pool executing one work item: the final work
state (holding the last error) and the status of the submitting G. -/
structure OffloadResult where
  work : GletWork
  g_status : GStatus

/-- Modelled from the spec: a thread-pool worker executes the work's `Run`
body (which may call `SaveLastError`) and then unconditionally calls
`Resume`, which readies the parked submitting G.  The body is an arbitrary
transformation of the work state. -/
def workerExecute (body : GletWork → GletWork) (w : GletWork) : OffloadResult :=
  { work := body w, g_status := GStatus.runnable }

/-- The well-formedness invariant of a P's ring (spec §8 invariant 2):
counters are 32-bit values, the 32-bit difference `(tail - head) mod 2^32`
is at most 256, and every slot between head and tail holds a non-null G. -/
def RingInv (p : P) : Prop :=
  p.runq_head < uint32Mod ∧ p.runq_tail < uint32Mod ∧
  ringSize p ≤ kRunqCapacity ∧
  ∀ i, i < ringSize p → p.runq ((p.runq_head + i) % kRunqCapacity) ≠ 0

instance (p : P) : Decidable (RingInv p) := by
  unfold RingInv; infer_instance

end Tin

namespace Tin.Net

/-- `IPAddress::kIPv4AddressSize`. -/
def kIPv4AddressSize : Nat := 4

/-- `IPAddress::kIPv6AddressSize`. -/
def kIPv6AddressSize : Nat := 16

/-- An IP address: the `ip_address_` byte vector (src/unnamed/part_000). -/
structure IPAddress where
  ip_address : List Nat

/-- `kIPv4MappedPrefix` in the source: the 12 leading bytes of an
IPv4-mapped IPv6 address (80 zero bits then 16 one bits, RFC 4291). -/
def kIPv4Mapped : List Nat := [0, 0, 0, 0, 0, 0, 0, 0, 0, 0, 0xFF, 0xFF]

/-- `IPAddress::size()`: the number of bytes. -/
def IPAddress.size (a : IPAddress) : Nat := a.ip_address.length

/-- `IPAddress::empty()`. -/
def IPAddress.emptyAddr (a : IPAddress) : Bool := a.ip_address.isEmpty

/-- `IPAddress::IsIPv4()`. -/
def IPAddress.IsIPv4 (a : IPAddress) : Bool := a.size == kIPv4AddressSize

/-- `IPAddress::IsIPv6()`. -/
def IPAddress.IsIPv6 (a : IPAddress) : Bool := a.size == kIPv6AddressSize

/-- `IPAddress::IsZero()`: scan the bytes, returning false on the first
non-zero byte; when all bytes are zero the result is `!empty()`. -/
def IPAddress.IsZero (a : IPAddress) : Bool :=
  a.ip_address.all (fun b => b == 0) && !a.emptyAddr

/-- Modelled from the spec: `IPAddressStartsWith` (declared in the missing
ip_address.h) — the address's bytes start with the given byte sequence. -/
def IPAddressStartsWith (a : IPAddress) (pfx : List Nat) : Bool :=
  pfx.isPrefixOf a.ip_address

/-- `IPAddress::IsIPv4MappedIPv6()`: IPv6 and starts with
`kIPv4MappedPrefix`. -/
def IPAddress.IsIPv4MappedIPv6 (a : IPAddress) : Bool :=
  a.IsIPv6 && IPAddressStartsWith a kIPv4Mapped

/-- `ConvertIPv4ToIPv4MappedIPv6`: prepend the 12 mapped-prefix bytes to
the 4 IPv4 bytes. -/
def ConvertIPv4ToIPv4MappedIPv6 (a : IPAddress) : IPAddress :=
  ⟨kIPv4Mapped ++ a.ip_address⟩

/-- `ConvertIPv4MappedIPv6ToIPv4`: drop the 12 mapped-prefix bytes. -/
def ConvertIPv4MappedIPv6ToIPv4 (a : IPAddress) : IPAddress :=
  ⟨a.ip_address.drop kIPv4Mapped.length⟩

end Tin.Net

namespace Tin

/-- Sanity: putting one G into an empty P and getting it back. -/
example :
    (RunqGet (RunqPut ⟨0, 0, fun _ => 0, 0, 0⟩ 7 false).1).1 = 7 := by
  decide

/-- Advancing the head by `k ≤ ringSize p` preserves the ring invariant and
shrinks the size by `k`. -/
theorem ringAdvance_inv (p : P) (k : Nat) (hp : RingInv p) (hk : k ≤ ringSize p) :
    RingInv { p with runq_head := (p.runq_head + k) % uint32Mod } ∧
    ringSize { p with runq_head := (p.runq_head + k) % uint32Mod } = ringSize p - k := by
  obtain ⟨hh, ht, hs, hq⟩ := hp
  have hsz : ringSize { p with runq_head := (p.runq_head + k) % uint32Mod }
      = ringSize p - k := by
    unfold ringSize uint32Mod at *
    simp only
    omega
  refine ⟨⟨?_, ht, ?_, ?_⟩, hsz⟩
  · show (p.runq_head + k) % uint32Mod < uint32Mod
    unfold uint32Mod; omega
  · rw [hsz]; omega
  · intro i hi
    rw [hsz] at hi
    have hidx : ((p.runq_head + k) % uint32Mod + i) % kRunqCapacity
        = (p.runq_head + (k + i)) % kRunqCapacity := by
      unfold uint32Mod kRunqCapacity at *
      omega
    simp only at hidx ⊢
    rw [hidx]
    exact hq (k + i) (by omega)

/-- A single ring put on a non-full well-formed ring preserves the
invariant, keeps the head, and grows the size by one. -/
theorem ringPut_inv (p : P) (gp : GPtr) (hp : RingInv p) (hgp : gp ≠ 0)
    (hroom : ringSize p < kRunqCapacity) :
    RingInv (ringPut p gp) ∧
    (ringPut p gp).runq_head = p.runq_head ∧
    ringSize (ringPut p gp) = ringSize p + 1 := by
  obtain ⟨hh, ht, hs, hq⟩ := hp
  have hsz : ringSize (ringPut p gp) = ringSize p + 1 := by
    unfold ringPut ringSize uint32Mod kRunqCapacity at *
    simp only
    omega
  refine ⟨⟨hh, ?_, ?_, ?_⟩, rfl, hsz⟩
  · unfold ringPut uint32Mod; simp only; omega
  · rw [hsz]; unfold kRunqCapacity at *; omega
  · intro i hi
    rw [hsz] at hi
    show Function.update p.runq (p.runq_tail % kRunqCapacity) gp
        ((p.runq_head + i) % kRunqCapacity) ≠ 0
    rw [Function.update_apply]
    split
    · exact hgp
    · rename_i hne
      rcases Nat.lt_succ_iff_lt_or_eq.mp hi with hlt | heq
      · exact hq i hlt
      · exfalso
        apply hne
        subst heq
        unfold ringSize uint32Mod kRunqCapacity at *
        omega

/-- Iterated ring puts of non-null G's that fit preserve the invariant,
keep the head, and grow the size by the batch length. -/
theorem ringPutList_inv (l : List GPtr) : ∀ p : P, RingInv p →
    (∀ x ∈ l, x ≠ 0) → ringSize p + l.length ≤ kRunqCapacity →
    RingInv (ringPutList p l) ∧
    (ringPutList p l).runq_head = p.runq_head ∧
    ringSize (ringPutList p l) = ringSize p + l.length := by
  induction l with
  | nil =>
      intro p hp _ _
      exact ⟨hp, rfl, by simp [ringPutList]⟩
  | cons x xs ih =>
      intro p hp hx hlen
      have hstep := ringPut_inv p x hp (hx x (by simp)) (by simp at hlen; omega)
      have hrest := ih (ringPut p x) hstep.1
        (fun y hy => hx y (by simp [hy])) (by simp at hlen ⊢; omega)
      have hfold : ringPutList p (x :: xs) = ringPutList (ringPut p x) xs := rfl
      refine ⟨hfold ▸ hrest.1, ?_, ?_⟩
      · rw [hfold, hrest.2.1, hstep.2.1]
      · rw [hfold, hrest.2.2, hstep.2.2]; simp; omega

/-- Every G between head and tail of a well-formed ring is non-null. -/
theorem ringSlice_mem_ne_zero (p : P) (k : Nat) (hp : RingInv p)
    (hk : k ≤ ringSize p) : ∀ x ∈ ringSlice p k, x ≠ 0 := by
  intro x hx
  unfold ringSlice at hx
  simp only [List.mem_map, List.mem_range] at hx
  obtain ⟨i, hi, rfl⟩ := hx
  exact hp.2.2.2 i (by omega)

/-- In a well-formed ring, the ring is empty exactly when head = tail. -/
theorem ringSize_eq_zero_iff (p : P) (hp : RingInv p) :
    ringSize p = 0 ↔ p.runq_head = p.runq_tail := by
  obtain ⟨hh, ht, -, -⟩ := hp
  unfold ringSize uint32Mod at *
  omega

/-- C2: `RunqGet` takes the run-next slot with `inherit_time = true` when
it is non-empty, otherwise the ring head with `inherit_time = false`, and
returns null exactly when both the run-next slot and the ring are empty. -/
theorem runqget_priority (p : P) (hinv : RingInv p) :
    (p.run_next ≠ 0 →
        RunqGet p = (p.run_next, true, { p with run_next := 0 })) ∧
    (p.run_next = 0 → p.runq_head ≠ p.runq_tail →
        (RunqGet p).1 = p.runq (p.runq_head % kRunqCapacity) ∧
        (RunqGet p).2.1 = false) ∧
    ((RunqGet p).1 = 0 ↔ p.run_next = 0 ∧ p.runq_head = p.runq_tail) := by
  refine ⟨?_, ?_, ?_⟩
  · intro h
    simp [RunqGet, h]
  · intro h hne
    simp [RunqGet, h, hne]
  · by_cases h : p.run_next = 0
    · by_cases hne : p.runq_head = p.runq_tail
      · simp [RunqGet, h, hne]
      · have hpos : 0 < ringSize p := by
          have := hinv.1
          have := hinv.2.1
          unfold ringSize uint32Mod at *
          omega
        have hnz : p.runq ((p.runq_head + 0) % kRunqCapacity) ≠ 0 :=
          hinv.2.2.2 0 hpos
        simp only [Nat.add_zero] at hnz
        simp [RunqGet, h, hne, hnz]
    · simp [RunqGet, h]

/-- C2 witness: evaluation of `runqget_priority` on a concrete P holding
G 5 in the run-next slot and G 9 in the ring. -/
theorem runqget_priority_witness :
    RunqGet ⟨0, 1, fun i => if i = 0 then 9 else 0, 5, 0⟩
      = (5, true, { (⟨0, 1, fun i => if i = 0 then 9 else 0, 5, 0⟩ : P) with
                    run_next := 0 }) :=
  (runqget_priority ⟨0, 1, fun i => if i = 0 then 9 else 0, 5, 0⟩
    (by decide)).1 (by decide)

/-- C4: a `RunqPut` followed by `RunqGet` on an empty P returns the same
G, with `inherit_time` equal to the `next` flag passed to the put. -/
theorem runqput_runqget_roundtrip (p : P) (gp : GPtr) (next : Bool)
    (hgp : gp ≠ 0) (hnext : p.run_next = 0)
    (hempty : p.runq_head = p.runq_tail) :
    (RunqGet (RunqPut p gp next).1).1 = gp ∧
    (RunqGet (RunqPut p gp next).1).2.1 = next := by
  obtain ⟨h, t, q, rn, st⟩ := p
  simp only at hnext hempty
  subst hnext
  subst hempty
  cases next with
  | true =>
      simp [RunqPut, RunqGet, hgp]
  | false =>
      have hsize : ringSize ⟨h, h, q, 0, st⟩ = 0 := by
        unfold ringSize uint32Mod; simp only; omega
      have hne : h ≠ (h + 1) % uint32Mod := by
        unfold uint32Mod; omega
      simp [RunqPut, RunqPutRing, hsize, kRunqCapacity, ringPut, RunqGet, hne,
        Function.update_apply]

/-- C4 witness: evaluation of `runqput_runqget_roundtrip` at G 7 with
`next = true` on a fresh P. -/
theorem runqput_runqget_roundtrip_witness :
    (RunqGet (RunqPut ⟨0, 0, fun _ => 0, 0, 0⟩ 7 true).1).1 = 7 ∧
    (RunqGet (RunqPut ⟨0, 0, fun _ => 0, 0, 0⟩ 7 true).1).2.1 = true :=
  runqput_runqget_roundtrip ⟨0, 0, fun _ => 0, 0, 0⟩ 7 true
    (by decide) rfl rfl

/-- C8: the thread-pool worker resumes the submitting G no matter what the
work body did, and a body that records error `e` via `SaveLastError`
leaves `LastError = e` observable after the resume. -/
theorem gletwork_error_resume :
    (∀ (body : GletWork → GletWork) (w : GletWork),
        (workerExecute body w).g_status = GStatus.runnable) ∧
    (∀ (w : GletWork) (e : Int),
        LastError (workerExecute (fun v => SaveLastError v e) w).work = e ∧
        (workerExecute (fun v => SaveLastError v e) w).g_status
          = GStatus.runnable) :=
  ⟨fun _ _ => rfl, fun _ _ => ⟨rfl, rfl⟩⟩

/-- C1: when `sched_tick % 61 = 60` — i.e. on the 61st dispatch after 60
completed local dispatches — and the global queue is non-empty,
`FindRunnable` returns the G at the head of the global queue and leaves
the local P (its run-next slot included) untouched. -/
theorem findrunnable_61st_tick (s : SchedState) (p : P)
    (htick : p.sched_tick % 61 = 60) (hg : s.runq ≠ []) :
    FindRunnable s p
      = (s.runq.headD 0, false, { s with runq := s.runq.drop 1 }, p) := by
  obtain ⟨q, np⟩ := s
  dsimp only at hg ⊢
  obtain ⟨g, gs, rfl⟩ := List.exists_cons_of_ne_nil hg
  have hcond : (p.sched_tick + 1) % 61 = 0 := by omega
  have hn : globTransferCount ⟨g :: gs, np⟩ 1 = 1 := by
    unfold globTransferCount GlobalRunqSize
    simp only [List.length_cons]
    have h2 : min 1 (gs.length + 1) = 1 := by omega
    rw [h2]
    exact min_eq_right (Nat.le_add_left 1 _)
  unfold FindRunnable GlobalRunqGet GlobalRunqSize
  simp [hcond, hn, ringPutList]

/-- C1 witness: evaluation of `findrunnable_61st_tick` with tick 60,
global queue `[7, 8]` and a P whose run-next slot holds G 5. -/
theorem findrunnable_61st_tick_witness :
    FindRunnable ⟨[7, 8], 2⟩ ⟨0, 0, fun _ => 0, 5, 60⟩
      = (7, false, ⟨[8], 2⟩, ⟨0, 0, fun _ => 0, 5, 60⟩) :=
  findrunnable_61st_tick ⟨[7, 8], 2⟩ ⟨0, 0, fun _ => 0, 5, 60⟩
    (by decide) (by decide)

/-- C5: `GlobalRunqGet(p, maximium)` removes exactly
`n = min(size/NPROCS + 1, maximium, size)` G's from the non-empty global
queue, returns the first, and inserts the other `n - 1` into `p`'s ring;
and a `GlobalRunqPut` on the empty global queue followed by
`GlobalRunqGet(q, 1)` returns the very G that was put. -/
theorem globalrunqget_transfer (s : SchedState) (p : P) (maximium : Nat)
    (hsz : 0 < GlobalRunqSize s) (hp : RingInv p)
    (hroom : ringSize p + (globTransferCount s maximium - 1) ≤ kRunqCapacity)
    (hnz : ∀ x ∈ s.runq, x ≠ 0) :
    (GlobalRunqGet s p maximium).1 = s.runq.headD 0 ∧
    GlobalRunqSize (GlobalRunqGet s p maximium).2.1
      = GlobalRunqSize s - globTransferCount s maximium ∧
    ringSize (GlobalRunqGet s p maximium).2.2
      = ringSize p + (globTransferCount s maximium - 1) ∧
    (∀ (g : GPtr) (q : P),
        GlobalRunqGet (GlobalRunqPut ⟨[], s.nprocs⟩ g) q 1
          = (g, ⟨[], s.nprocs⟩, q)) := by
  have hsz0 : ¬ GlobalRunqSize s = 0 := by omega
  have hn_le : globTransferCount s maximium ≤ GlobalRunqSize s := by
    unfold globTransferCount; omega
  have htail_len : (s.runq.take (globTransferCount s maximium)).tail.length
      = globTransferCount s maximium - 1 := by
    simp [List.length_tail, List.length_take]
    unfold GlobalRunqSize at hn_le
    omega
  have hput := ringPutList_inv (s.runq.take (globTransferCount s maximium)).tail
    p hp
    (fun x hx => hnz x (List.take_subset _ _ (List.tail_subset _ hx)))
    (by rw [htail_len]; exact hroom)
  refine ⟨?_, ?_, ?_, ?_⟩
  · unfold GlobalRunqGet; simp [hsz0]
  · unfold GlobalRunqGet GlobalRunqSize at *
    simp [hsz0]
  · unfold GlobalRunqGet
    rw [if_neg hsz0]
    simp only
    rw [hput.2.2, htail_len]
  · intro g q
    have h1 : globTransferCount ⟨[g], s.nprocs⟩ 1 = 1 := by
      unfold globTransferCount GlobalRunqSize
      simp only [List.length_singleton, Nat.min_self]
      exact min_eq_right (Nat.le_add_left 1 _)
    unfold GlobalRunqGet GlobalRunqPut GlobalRunqSize
    simp [h1, ringPutList]

/-- C5 witness: evaluation of `globalrunqget_transfer` on a global queue
of four G's with NPROCS = 2 and `maximium = 3`: `n = min(4/2+1, 3, 4) = 3`
G's leave the global queue, the head G 11 is returned, and 2 G's land in
the empty ring. -/
theorem globalrunqget_transfer_witness :
    (GlobalRunqGet ⟨[11, 12, 13, 14], 2⟩ ⟨0, 0, fun _ => 0, 0, 0⟩ 3).1
      = ([11, 12, 13, 14] : List GPtr).headD 0 ∧
    GlobalRunqSize
        (GlobalRunqGet ⟨[11, 12, 13, 14], 2⟩ ⟨0, 0, fun _ => 0, 0, 0⟩ 3).2.1
      = GlobalRunqSize ⟨[11, 12, 13, 14], 2⟩
          - globTransferCount ⟨[11, 12, 13, 14], 2⟩ 3 ∧
    ringSize
        (GlobalRunqGet ⟨[11, 12, 13, 14], 2⟩ ⟨0, 0, fun _ => 0, 0, 0⟩ 3).2.2
      = ringSize ⟨0, 0, fun _ => 0, 0, 0⟩
          + (globTransferCount ⟨[11, 12, 13, 14], 2⟩ 3 - 1) ∧
    (∀ (g : GPtr) (q : P),
        GlobalRunqGet (GlobalRunqPut ⟨[], 2⟩ g) q 1 = (g, ⟨[], 2⟩, q)) :=
  globalrunqget_transfer ⟨[11, 12, 13, 14], 2⟩ ⟨0, 0, fun _ => 0, 0, 0⟩ 3
    (by decide) (by decide) (by decide) (by decide)

/-- C3: a `RunqPut` on a P whose ring holds exactly 256 G's moves the
first 128 ring G's plus the new G — 129 G's in all — to the global queue
and leaves the ring with exactly 128 G's. -/
theorem runqput_full_spills_half (p : P) (gp : GPtr)
    (ht : p.runq_tail < uint32Mod)
    (hfull : ringSize p = kRunqCapacity) :
    (RunqPut p gp false).2 = ringSlice p 128 ++ [gp] ∧
    (RunqPut p gp false).2.length = 129 ∧
    ringSize (RunqPut p gp false).1 = 128 := by
  have hnotroom : ¬ ringSize p < kRunqCapacity := by omega
  have hhalf : ringSize p / 2 = 128 := by
    rw [hfull]; decide
  have h1 : RunqPut p gp false = RunqPutSlow p gp := by
    unfold RunqPut RunqPutRing
    simp [hnotroom]
  rw [h1]
  unfold RunqPutSlow
  simp only [hhalf]
  refine ⟨trivial, ?_, ?_⟩
  · simp [ringSlice]
  · unfold ringSize uint32Mod kRunqCapacity at *
    simp only
    omega

/-- C3 witness: evaluation of `runqput_full_spills_half` on a concretely
full ring (head 0, tail 256, slot i holding G i+1) with new G 999. -/
theorem runqput_full_spills_half_witness :
    (RunqPut ⟨0, 256, fun i => i + 1, 0, 0⟩ 999 false).2.length = 129 ∧
    ringSize (RunqPut ⟨0, 256, fun i => i + 1, 0, 0⟩ 999 false).1 = 128 :=
  ⟨(runqput_full_spills_half ⟨0, 256, fun i => i + 1, 0, 0⟩ 999
      (by decide) (by decide)).2.1,
   (runqput_full_spills_half ⟨0, 256, fun i => i + 1, 0, 0⟩ 999
      (by decide) (by decide)).2.2⟩

/-- C6: when the victim's ring holds at most one G (`n = (t-h)/2 = 0`),
`RunqSteal` takes nothing from the victim's ring and leaves the thief's
ring untouched; if `steal_nextg` is set and the victim's run-next slot is
occupied, that slot's G is stolen and returned; otherwise the steal comes
back empty-handed. -/
theorem runqsteal_small_victim (p p2 : P) (steal_nextg : Bool)
    (hsmall : ringSize p2 ≤ 1) :
    (RunqSteal p p2 steal_nextg).2.1 = p ∧
    (RunqSteal p p2 steal_nextg).2.2.runq_head = p2.runq_head ∧
    (RunqSteal p p2 steal_nextg).2.2.runq_tail = p2.runq_tail ∧
    (RunqSteal p p2 steal_nextg).2.2.runq = p2.runq ∧
    (steal_nextg = true → p2.run_next ≠ 0 →
        (RunqSteal p p2 steal_nextg).1 = p2.run_next ∧
        (RunqSteal p p2 steal_nextg).2.2.run_next = 0) ∧
    (steal_nextg = false ∨ p2.run_next = 0 →
        RunqSteal p p2 steal_nextg = (0, p, p2)) := by
  have hn : ringSize p2 / 2 = 0 := by omega
  by_cases hs : steal_nextg = true <;> by_cases hrn : p2.run_next = 0 <;>
    simp_all [RunqSteal, RunqGrab, hn, ringPutList]

/-- C6 witness: evaluation of `runqsteal_small_victim` with a victim whose
ring holds the single G 9 and whose run-next slot holds G 4: with
`steal_nextg` the ring stays intact and G 4 is stolen. -/
theorem runqsteal_small_victim_witness :
    (RunqSteal ⟨0, 0, fun _ => 0, 0, 0⟩ ⟨0, 1, fun i => if i = 0 then 9 else 0, 4, 0⟩
        true).2.2.runq_head
      = (⟨0, 1, fun i => if i = 0 then 9 else 0, 4, 0⟩ : P).runq_head ∧
    ((RunqSteal ⟨0, 0, fun _ => 0, 0, 0⟩
        ⟨0, 1, fun i => if i = 0 then 9 else 0, 4, 0⟩ true).1 = 4 ∧
     (RunqSteal ⟨0, 0, fun _ => 0, 0, 0⟩
        ⟨0, 1, fun i => if i = 0 then 9 else 0, 4, 0⟩ true).2.2.run_next = 0) :=
  ⟨(runqsteal_small_victim ⟨0, 0, fun _ => 0, 0, 0⟩
      ⟨0, 1, fun i => if i = 0 then 9 else 0, 4, 0⟩ true (by decide)).2.1,
   (runqsteal_small_victim ⟨0, 0, fun _ => 0, 0, 0⟩
      ⟨0, 1, fun i => if i = 0 then 9 else 0, 4, 0⟩ true (by decide)).2.2.2.2.1
     rfl (by decide)⟩

/-- `RunqPutRing` (the ring insert with overflow spill) preserves the ring
invariant. -/
theorem runqPutRing_inv (p : P) (gp : GPtr) (hp : RingInv p) (hgp : gp ≠ 0) :
    RingInv (RunqPutRing p gp).1 := by
  unfold RunqPutRing
  by_cases hroom : ringSize p < kRunqCapacity
  · rw [if_pos hroom]
    exact (ringPut_inv p gp hp hgp hroom).1
  · rw [if_neg hroom]
    unfold RunqPutSlow
    simp only
    exact (ringAdvance_inv p (ringSize p / 2) hp (Nat.div_le_self _ _)).1

/-- `RunqGrab` preserves the victim's ring invariant, grabs only non-null
G's, and grabs at most half the ring capacity. -/
theorem runqGrab_inv (p2 : P) (steal_nextg : Bool) (hp2 : RingInv p2) :
    RingInv (RunqGrab p2 steal_nextg).2 ∧
    (∀ x ∈ (RunqGrab p2 steal_nextg).1, x ≠ 0) ∧
    (RunqGrab p2 steal_nextg).1.length ≤ 128 := by
  unfold RunqGrab
  by_cases hn : ringSize p2 / 2 = 0
  · rw [if_pos hn]
    by_cases hc : (steal_nextg && p2.run_next != 0) = true
    · rw [if_pos hc]
      refine ⟨hp2, ?_, by simp⟩
      intro x hx
      simp only [List.mem_singleton] at hx
      subst hx
      exact bne_iff_ne.mp (Bool.and_elim_right hc)
    · rw [if_neg hc]
      exact ⟨hp2, by simp, by simp⟩
  · rw [if_neg hn]
    have hk : ringSize p2 / 2 ≤ ringSize p2 := Nat.div_le_self _ _
    refine ⟨(ringAdvance_inv p2 (ringSize p2 / 2) hp2 hk).1,
      ringSlice_mem_ne_zero p2 (ringSize p2 / 2) hp2 hk, ?_⟩
    have hcap : ringSize p2 ≤ kRunqCapacity := hp2.2.2.1
    unfold ringSlice kRunqCapacity at *
    simp only [List.length_map, List.length_range]
    omega

/-- C7: the ring invariant — 32-bit counters with
`(tail - head) mod 2^32 ≤ 256` and non-null slots between head and tail —
gives empty ⇔ head = tail, and is preserved by `RunqPut`, `RunqGet`,
`MoveRunqToGlobal`, and (for a stealer whose own ring is empty, the only
state in which FindRunnable steals) by `RunqSteal` on both P's. -/
theorem ring_invariant_preserved (p : P) (hp : RingInv p) :
    (ringSize p = 0 ↔ p.runq_head = p.runq_tail) ∧
    (∀ (gp : GPtr) (next : Bool), gp ≠ 0 → RingInv (RunqPut p gp next).1) ∧
    RingInv (RunqGet p).2.2 ∧
    RingInv (MoveRunqToGlobal p).1 ∧
    (∀ (p2 : P) (steal_nextg : Bool), RingInv p2 → ringSize p = 0 →
        RingInv (RunqSteal p p2 steal_nextg).2.1 ∧
        RingInv (RunqSteal p p2 steal_nextg).2.2) := by
  refine ⟨ringSize_eq_zero_iff p hp, ?_, ?_, ?_, ?_⟩
  · intro gp next hgp
    unfold RunqPut
    cases next with
    | false =>
        simp only [Bool.false_eq_true, if_false]
        exact runqPutRing_inv p gp hp hgp
    | true =>
        simp only [if_pos]
        by_cases h0 : p.run_next = 0
        · rw [if_pos h0]
          exact hp
        · rw [if_neg h0]
          exact runqPutRing_inv { p with run_next := gp } p.run_next hp h0
  · unfold RunqGet
    by_cases h0 : p.run_next ≠ 0
    · rw [if_pos h0]
      exact hp
    · rw [if_neg h0]
      by_cases he : p.runq_head = p.runq_tail
      · rw [if_pos he]
        exact hp
      · rw [if_neg he]
        have h1 : 1 ≤ ringSize p := by
          have hh := hp.1
          have ht := hp.2.1
          unfold ringSize uint32Mod at *
          omega
        exact (ringAdvance_inv p 1 hp h1).1
  · unfold MoveRunqToGlobal
    simp only
    refine ⟨hp.2.1, hp.2.1, ?_, ?_⟩
    · unfold ringSize uint32Mod
      simp only
      omega
    · intro i hi
      exfalso
      unfold ringSize uint32Mod at hi
      simp only at hi
      omega
  · intro p2 steal_nextg hp2 hempty
    have hg := runqGrab_inv p2 steal_nextg hp2
    unfold RunqSteal
    dsimp only
    split
    · exact ⟨hp, hg.1⟩
    · rename_i x xs heq
      refine ⟨?_, hg.1⟩
      have hlen : (RunqGrab p2 steal_nextg).1.dropLast.length
          = (RunqGrab p2 steal_nextg).1.length - 1 := List.length_dropLast _
      refine (ringPutList_inv (RunqGrab p2 steal_nextg).1.dropLast p hp ?_ ?_).1
      · intro y hy
        exact hg.2.1 y (List.dropLast_subset _ hy)
      · rw [hlen, hempty]
        have := hg.2.2
        unfold kRunqCapacity
        omega

/-- C7 witness: evaluation of `ring_invariant_preserved` on a concrete
well-formed P holding G's 1 and 2: the invariant survives a `RunqGet`. -/
theorem ring_invariant_preserved_witness :
    RingInv (⟨0, 2, fun i => if i < 2 then i + 1 else 0, 3, 0⟩ : P) ∧
    RingInv (RunqGet ⟨0, 2, fun i => if i < 2 then i + 1 else 0, 3, 0⟩).2.2 :=
  ⟨by decide,
   (ring_invariant_preserved ⟨0, 2, fun i => if i < 2 then i + 1 else 0, 3, 0⟩
      (by decide)).2.2.1⟩

end Tin

namespace Tin.Net

/-- C10: `IsZero` is false on the empty (default-constructed) address, and
in general holds exactly for a non-empty address whose bytes are all 0. -/
theorem isZero_iff_nonempty_all_zero :
    IPAddress.IsZero ⟨[]⟩ = false ∧
    ∀ a : IPAddress,
      a.IsZero = true ↔ a.ip_address ≠ [] ∧ ∀ b ∈ a.ip_address, b = 0 := by
  refine ⟨rfl, fun a => ?_⟩
  simp [IPAddress.IsZero, IPAddress.emptyAddr, List.isEmpty_iff, and_comm]

/-- C10 witness: evaluation of `isZero_iff_nonempty_all_zero` on the
two-byte all-zero address. -/
theorem isZero_iff_nonempty_all_zero_witness :
    (⟨[0, 0]⟩ : IPAddress).ip_address ≠ [] ∧
    ∀ b ∈ (⟨[0, 0]⟩ : IPAddress).ip_address, b = 0 :=
  (isZero_iff_nonempty_all_zero.2 ⟨[0, 0]⟩).mp (by decide)

/-- C9: mapping a 4-byte IPv4 address into an IPv4-mapped IPv6 address and
back is the identity; the intermediate is 16 bytes, satisfies
`IsIPv4MappedIPv6`, and begins with the 12 mapped-prefix bytes. -/
theorem convert_ipv4_mapped_roundtrip (a : IPAddress) (h : a.IsIPv4 = true) :
    ConvertIPv4MappedIPv6ToIPv4 (ConvertIPv4ToIPv4MappedIPv6 a) = a ∧
    (ConvertIPv4ToIPv4MappedIPv6 a).size = kIPv6AddressSize ∧
    (ConvertIPv4ToIPv4MappedIPv6 a).IsIPv4MappedIPv6 = true ∧
    (ConvertIPv4ToIPv4MappedIPv6 a).ip_address.take 12 = kIPv4Mapped := by
  have hlen : a.ip_address.length = 4 := by
    simpa [IPAddress.IsIPv4, IPAddress.size, kIPv4AddressSize] using h
  refine ⟨rfl, ?_, ?_, ?_⟩
  · simp [ConvertIPv4ToIPv4MappedIPv6, IPAddress.size, kIPv4Mapped,
      kIPv6AddressSize, hlen]
  · simp [ConvertIPv4ToIPv4MappedIPv6, IPAddress.IsIPv4MappedIPv6,
      IPAddress.IsIPv6, IPAddress.size, IPAddressStartsWith, kIPv4Mapped,
      kIPv6AddressSize, hlen, List.isPrefixOf_iff_prefix]
  · simp [ConvertIPv4ToIPv4MappedIPv6, kIPv4Mapped]

/-- C9 witness: evaluation of `convert_ipv4_mapped_roundtrip` at
192.168.0.1. -/
theorem convert_ipv4_mapped_roundtrip_witness :
    ConvertIPv4MappedIPv6ToIPv4
        (ConvertIPv4ToIPv4MappedIPv6 ⟨[192, 168, 0, 1]⟩) = ⟨[192, 168, 0, 1]⟩ ∧
    (ConvertIPv4ToIPv4MappedIPv6 ⟨[192, 168, 0, 1]⟩).size = kIPv6AddressSize ∧
    (ConvertIPv4ToIPv4MappedIPv6 ⟨[192, 168, 0, 1]⟩).IsIPv4MappedIPv6 = true ∧
    (ConvertIPv4ToIPv4MappedIPv6
        ⟨[192, 168, 0, 1]⟩).ip_address.take 12 = kIPv4Mapped :=
  convert_ipv4_mapped_roundtrip ⟨[192, 168, 0, 1]⟩ (by decide)

end Tin.Net
